import Mathlib

/-!
# Verification of the document chunking pipeline

Shallow embedding of `chunking_service.py` and the critical-section
classifier of `document_parser.py` from the airbnb-property-guest-assistant
example.  Python strings are modelled as `List Char`; every function below
mirrors one Python function of the source.
-/

set_option autoImplicit false

namespace Chunking

/-! ## Python string primitives -/

/-- Python whitespace predicate used by `str.strip` and `str.split`. -/
def pyIsSpace (c : Char) : Bool :=
  c = ' ' || c = '\t' || c = '\n' || c = '\r' || c = '\x0b' || c = '\x0c'

/-- `str.strip()`: drop leading and trailing whitespace. -/
def pyStrip (l : List Char) : List Char :=
  (((l.dropWhile pyIsSpace).reverse.dropWhile pyIsSpace)).reverse

/-- `str.lower()` (ASCII-faithful model). -/
def pyLower (l : List Char) : List Char := l.map Char.toLower

/-- Does `hay` start with `needle`? -/
def startsWith : List Char → List Char → Bool
  | [], _ => true
  | _ :: _, [] => false
  | a :: as, b :: bs => a = b && startsWith as bs

/-- Python's substring test `needle in hay`. -/
def listContains (needle hay : List Char) : Bool :=
  match hay with
  | [] => needle.isEmpty
  | _ :: t => startsWith needle hay || listContains needle t

/-! ## `ChunkingService.__init__` (constructor clamping) -/

/-- `self.chunk_size = max(MIN_CHUNK_SIZE, min(chunk_size, MAX_CHUNK_SIZE))`. -/
def effectiveChunkSize (cs : Int) : Int := max 100 (min cs 2000)

/-- `self.chunk_overlap = min(chunk_overlap, chunk_size // 2)` — note the
right-hand side uses the raw constructor argument `chunk_size`, not the
clamped `self.chunk_size`. -/
def effectiveChunkOverlap (cs co : Int) : Int := min co (Int.fdiv cs 2)

/-- The two configuration fields of a constructed `ChunkingService`. -/
structure ChunkingService where
  chunk_size : Int
  chunk_overlap : Int
deriving DecidableEq

/-- `ChunkingService.__init__`. -/
def mkChunkingService (cs co : Int) : ChunkingService :=
  { chunk_size := effectiveChunkSize cs, chunk_overlap := effectiveChunkOverlap cs co }

/-! ## `get_chunking_service` (module-level singleton)

The module global `_instance` is modelled by explicit state passing:
the function receives the current value of `_instance` and returns the
result together with the new value of `_instance`. -/

/-- `get_chunking_service`: construct on first call, otherwise return the
stored instance untouched. -/
def getChunkingService (cs co : Int) :
    Option ChunkingService → ChunkingService × Option ChunkingService
  | none => (mkChunkingService cs co, some (mkChunkingService cs co))
  | some inst => (inst, some inst)

/-! ## `ChunkingService._format_chunk_content` -/

/-- `_format_chunk_content`: prepend `[title]\n` when the (non-empty) title
does not occur case-insensitively within the first 100 characters of the
content. -/
def formatChunkContent (title content : List Char) : List Char :=
  if title ≠ [] ∧ listContains (pyLower title) ((pyLower content).take 100) = false then
    '[' :: (title ++ ']' :: '\n' :: content)
  else content

/-! ## Text splitting

`re.split(r'\n\n+', text)` is modelled by a one-pass state machine carrying
the reversed current piece and the number of pending consecutive newlines:
a run of two or more newlines is one separator (greedy), a single newline is
ordinary content.  Pieces may be empty, exactly as with `re.split`. -/

def splitParasGo : List Char → List Char → Nat → List (List Char)
  | [], cur, k =>
      if 2 ≤ k then [cur.reverse, []]
      else if k = 1 then [('\n' :: cur).reverse]
      else [cur.reverse]
  | c :: cs, cur, k =>
      if c = '\n' then splitParasGo cs cur (k + 1)
      else if 2 ≤ k then cur.reverse :: splitParasGo cs [c] 0
      else if k = 1 then splitParasGo cs (c :: '\n' :: cur) 0
      else splitParasGo cs (c :: cur) 0

def splitParas (text : List Char) : List (List Char) := splitParasGo text [] 0

/-- Is the last accumulated character sentence-ending punctuation?  This is
the `(?<=[.!?])` lookbehind of `_split_long_paragraph`. -/
def punctHead : List Char → Bool
  | [] => false
  | c :: _ => c = '.' || c = '!' || c = '?'

/-- `re.split(r'(?<=[.!?])\s+', paragraph)` as a state machine; the flag is
true while a separator's whitespace run is being consumed (greedy). -/
def splitSentencesGo : Bool → List Char → List Char → List (List Char)
  | _, [], cur => [cur.reverse]
  | true, c :: cs, cur =>
      if pyIsSpace c then splitSentencesGo true cs cur
      else splitSentencesGo false cs (c :: cur)
  | false, c :: cs, cur =>
      if pyIsSpace c && punctHead cur then cur.reverse :: splitSentencesGo true cs []
      else splitSentencesGo false cs (c :: cur)

def splitSentences (text : List Char) : List (List Char) := splitSentencesGo false text []

/-- `str.split()` (no argument): split on whitespace runs, no empty words. -/
def splitWsGo : List Char → List Char → List (List Char)
  | [], cur => if cur = [] then [] else [cur.reverse]
  | c :: cs, cur =>
      if pyIsSpace c then
        if cur = [] then splitWsGo cs [] else cur.reverse :: splitWsGo cs []
      else splitWsGo cs (c :: cur)

def pySplitWs (l : List Char) : List (List Char) := splitWsGo l []

/-- The loop body of `_split_on_words`, iterating over the word list with
the accumulated chunk list and current buffer. -/
def splitOnWordsLoop (size : Nat) : List (List Char) → List Char → List (List Char) → List (List Char)
  | chunks, cur, [] => if cur = [] then chunks else chunks ++ [pyStrip cur]
  | chunks, cur, w :: ws =>
      if size < cur.length + w.length + 1 then
        splitOnWordsLoop size (if cur = [] then chunks else chunks ++ [pyStrip cur]) w ws
      else
        splitOnWordsLoop size chunks (if cur = [] then w else cur ++ ' ' :: w) ws

/-- `ChunkingService._split_on_words`. -/
def splitOnWords (size : Nat) (text : List Char) : List (List Char) :=
  splitOnWordsLoop size [] [] (pySplitWs text)

/-- The loop body of `_split_long_paragraph`, iterating over sentences. -/
def splitLongParaLoop (size : Nat) : List (List Char) → List Char → List (List Char) → List (List Char)
  | chunks, cur, [] => if cur = [] then chunks else chunks ++ [pyStrip cur]
  | chunks, cur, s :: ss =>
      if size < cur.length + s.length + 1 then
        if size < s.length then
          splitLongParaLoop size
            ((if cur = [] then chunks else chunks ++ [pyStrip cur]) ++ (splitOnWords size s).dropLast)
            ((splitOnWords size s).getLast?.getD []) ss
        else
          splitLongParaLoop size (if cur = [] then chunks else chunks ++ [pyStrip cur]) s ss
      else
        splitLongParaLoop size chunks (if cur = [] then s else cur ++ ' ' :: s) ss

/-- `ChunkingService._split_long_paragraph`. -/
def splitLongParagraph (size : Nat) (para : List Char) : List (List Char) :=
  splitLongParaLoop size [] [] (splitSentences para)

/-- The loop body of `_split_text`, iterating over paragraphs. -/
def splitTextLoop (size : Nat) : List (List Char) → List Char → List (List Char) → List (List Char)
  | chunks, cur, [] => if cur = [] then chunks else chunks ++ [pyStrip cur]
  | chunks, cur, p :: ps =>
      if pyStrip p = [] then splitTextLoop size chunks cur ps
      else if size < cur.length + (pyStrip p).length + 2 then
        if size < (pyStrip p).length then
          splitTextLoop size
            ((if cur = [] then chunks else chunks ++ [pyStrip cur]) ++
              (splitLongParagraph size (pyStrip p)).dropLast)
            ((splitLongParagraph size (pyStrip p)).getLast?.getD []) ps
        else
          splitTextLoop size (if cur = [] then chunks else chunks ++ [pyStrip cur]) (pyStrip p) ps
      else
        splitTextLoop size chunks (if cur = [] then pyStrip p else cur ++ '\n' :: '\n' :: pyStrip p) ps

/-- The pre-overlap chunk list computed by `_split_text` before the final
`_add_overlap` call. -/
def rawChunks (size : Nat) (text : List Char) : List (List Char) :=
  splitTextLoop size [] [] (splitParas text)

/-- `prev_chunk[-overlap:] if len(prev_chunk) > overlap else prev_chunk`. -/
def overlapWindow (ov : Nat) (prev : List Char) : List Char :=
  if ov < prev.length then prev.drop (prev.length - ov) else prev

/-- `find(" ")` on the window followed by the `space_idx > 0` trim of
`_add_overlap`. -/
def snippetOfWindow (t : List Char) : List Char :=
  match t.findIdx? (fun c => c = ' ') with
  | some i => if 0 < i then t.drop (i + 1) else t
  | none => t

/-- The overlap snippet drawn from the tail of the previous chunk in
`_add_overlap`: the last `chunk_overlap` characters, with everything up to
and including the first space removed when that space is at a positive
index. -/
def overlapSnippet (ov : Nat) (prev : List Char) : List Char :=
  snippetOfWindow (overlapWindow ov prev)

/-- The tail of the `_add_overlap` loop: each chunk after the first becomes
`f"...{overlap_text} {chunk}"` with the snippet drawn from the ORIGINAL
previous chunk. -/
def addOverlapGo (ov : Nat) : List Char → List (List Char) → List (List Char)
  | _, [] => []
  | prev, c :: cs =>
      ('.' :: '.' :: '.' :: (overlapSnippet ov prev ++ ' ' :: c)) :: addOverlapGo ov c cs

/-- `ChunkingService._add_overlap`. -/
def addOverlap (ov : Nat) : List (List Char) → List (List Char)
  | [] => []
  | c :: cs => c :: addOverlapGo ov c cs

/-- `ChunkingService._split_text`: raw chunks plus overlap when the overlap
is positive and at least two chunks were produced. -/
def splitText (size ov : Nat) (text : List Char) : List (List Char) :=
  if 0 < ov ∧ 1 < (rawChunks size text).length then addOverlap ov (rawChunks size text)
  else rawChunks size text

/-- Amended trimming rule on a window: when the window contains a space and
does not start with one (first space at a positive index), drop everything
up to and including the first space; otherwise keep the window unchanged. -/
def snippetAmendedOfWindow (w : List Char) : List Char :=
  if w.contains ' ' = true ∧ w.head? ≠ some ' ' then
    (w.dropWhile (fun c => ¬ c = ' ')).drop 1
  else w

/-- Written from the amended reading of C4: the last `chunk_overlap`
characters of the previous chunk, trimmed by `snippetAmendedOfWindow`. -/
def snippetAmended (ov : Nat) (prev : List Char) : List Char :=
  snippetAmendedOfWindow (prev.drop (prev.length - ov))

/-- Does `snip` occur as a proper suffix of `prev` beginning in the middle
of a word (preceded by a non-whitespace character and itself starting with
a non-whitespace character)? -/
def snippetStartsMidWord (prev snip : List Char) : Bool :=
  decide (snip.length < prev.length) &&
  decide (prev.drop (prev.length - snip.length) = snip) &&
  !(pyIsSpace ((prev.take (prev.length - snip.length)).getLastD ' ')) &&
  !(pyIsSpace (snip.headD ' '))

/-- Does the string own at least one non-whitespace character? -/
def hasNonWs (l : List Char) : Prop := ∃ c ∈ l, pyIsSpace c = false

/-- Does the string end with a non-whitespace character? -/
def lastNonWs (m : List Char) : Prop :=
  ∃ c, m.getLast? = some c ∧ pyIsSpace c = false

/-! ## Documents and chunks -/

/-- `ParsedSection` of `document_parser.py`. -/
structure ParsedSection where
  title : List Char
  content : List Char
  level : Nat
  is_critical : Bool
deriving DecidableEq

/-- The fields of `ParsedDocument` consumed by the chunker; `doc_type` is
modelled as its string value. -/
structure ParsedDocument where
  title : List Char
  sections : List ParsedSection
  doc_type : List Char
  language : List Char
  source_url : List Char
  source_filename : List Char
deriving DecidableEq

/-- The metadata dict attached to each chunk; the two keys present only for
split sections are `Option`s (`none` models an absent key). -/
structure ChunkMetadata where
  ingestion_id : List Char
  document_title : List Char
  section_level : Nat
  chunk_part : Option Nat
  section_parts : Option Nat
deriving DecidableEq

/-- `DocumentChunk` of `chunking_service.py`. -/
structure DocumentChunk where
  id : List Char
  content : List Char
  section_title : List Char
  doc_type : List Char
  language : List Char
  is_critical : Bool
  source_url : List Char
  source_filename : List Char
  property_id : List Char
  chunk_index : Nat
  total_chunks : Nat
  metadata : ChunkMetadata
deriving DecidableEq

/-- `%04d` formatting: decimal digits padded with zeros to width 4, growing
naturally beyond 9999. -/
def pad4 (n : Nat) : List Char :=
  List.replicate (4 - (Nat.toDigits 10 n).length) '0' ++ Nat.toDigits 10 n

/-- `f"{property_id}_{ingestion_id}_{index:04d}"`. -/
def mkChunkId (pid iid : List Char) (n : Nat) : List Char :=
  pid ++ '_' :: iid ++ '_' :: pad4 n

/-- The `enumerate(text_chunks)` loop of `_chunk_section` for a split
section: chunk `i` carries global index `start + i`, `chunk_part = i + 1`
and `section_parts` = the total piece count. -/
def mkSectionChunks (s : ParsedSection) (doc : ParsedDocument) (pid iid : List Char)
    (parts start : Nat) : Nat → List (List Char) → List DocumentChunk
  | _, [] => []
  | i, t :: ts =>
      { id := mkChunkId pid iid (start + i)
        content := formatChunkContent s.title t
        section_title := s.title
        doc_type := doc.doc_type
        language := doc.language
        is_critical := s.is_critical
        source_url := doc.source_url
        source_filename := doc.source_filename
        property_id := pid
        chunk_index := start + i
        total_chunks := 0
        metadata :=
          { ingestion_id := iid
            document_title := doc.title
            section_level := s.level
            chunk_part := some (i + 1)
            section_parts := some parts } } :: mkSectionChunks s doc pid iid parts start (i + 1) ts

/-- `ChunkingService._chunk_section`. -/
def chunkSection (size ov : Nat) (s : ParsedSection) (doc : ParsedDocument)
    (pid iid : List Char) (start : Nat) : List DocumentChunk :=
  if pyStrip s.content = [] then []
  else if (pyStrip s.content).length ≤ size then
    [{ id := mkChunkId pid iid start
       content := formatChunkContent s.title (pyStrip s.content)
       section_title := s.title
       doc_type := doc.doc_type
       language := doc.language
       is_critical := s.is_critical
       source_url := doc.source_url
       source_filename := doc.source_filename
       property_id := pid
       chunk_index := start
       total_chunks := 0
       metadata :=
         { ingestion_id := iid
           document_title := doc.title
           section_level := s.level
           chunk_part := none
           section_parts := none } }]
  else
    mkSectionChunks s doc pid iid (splitText size ov (pyStrip s.content)).length start 0
      (splitText size ov (pyStrip s.content))

/-! ## Critical-section classification (`document_parser.py`) -/

/-- `DocumentParser.CRITICAL_KEYWORDS`. -/
def CRITICAL_KEYWORDS : List (List Char) :=
  ["safety".data, "emergency".data, "fire".data, "evacuation".data, "rules".data,
   "house rules".data, "prohibited".data, "not allowed".data, "forbidden".data,
   "warning".data, "caution".data, "important".data, "must".data, "required".data,
   "checkout".data, "check-out".data, "check out".data, "checkin".data,
   "check-in".data, "check in".data, "late checkout".data, "early checkin".data,
   "security".data, "alarm".data, "code".data, "lock".data, "key".data,
   "lockbox".data, "keypad".data, "contact".data, "host contact".data,
   "emergency contact".data, "911".data, "police".data, "hospital".data,
   "medical".data, "first aid".data, "poison".data, "gas leak".data]

/-- `DocumentParser._is_critical_section`: case-insensitive keyword search
over the single string it is given. -/
def isCriticalSection (text : List Char) : Bool :=
  CRITICAL_KEYWORDS.any (fun k => listContains k (pyLower text))

/-- The heading-based section construction sites of `DocumentParser` (DOCX,
HTML, Markdown and plain-text heading paths): the classifier is called on
the section TITLE only, never on the body. -/
def mkHeadingSection (title content : List Char) (level : Nat) : ParsedSection :=
  { title := title
    content := content
    level := level
    is_critical := isCriticalSection title }

/-- The section loop of `chunk_document` with its running global counter. -/
def chunkDocumentGo (size ov : Nat) (doc : ParsedDocument) (pid iid : List Char) :
    Nat → List ParsedSection → List DocumentChunk
  | _, [] => []
  | n, s :: ss =>
      chunkSection size ov s doc pid iid n ++
        chunkDocumentGo size ov doc pid iid
          (n + (chunkSection size ov s doc pid iid n).length) ss

/-- `ChunkingService.chunk_document`: chunk every section in order, then
back-fill `total_chunks` on every chunk. -/
def chunkDocument (size ov : Nat) (doc : ParsedDocument) (pid iid : List Char) :
    List DocumentChunk :=
  (chunkDocumentGo size ov doc pid iid 0 doc.sections).map
    (fun c => { c with total_chunks := (chunkDocumentGo size ov doc pid iid 0 doc.sections).length })

end Chunking

namespace Chunking

/-! ## Substring helper lemmas -/

theorem startsWith_append_self (n z : List Char) : startsWith n (n ++ z) = true := by
  induction n with
  | nil => rfl
  | cons a as ih => simpa [startsWith] using ih

theorem listContains_append_self (n z : List Char) : listContains n (n ++ z) = true := by
  cases n with
  | nil => cases z <;> simp [listContains, startsWith]
  | cons a as =>
      have h := startsWith_append_self (a :: as) z
      simp only [listContains, List.cons_append, Bool.or_eq_true]
      exact Or.inl (by simpa using h)

theorem listContains_cons_of_listContains (n : List Char) (d : Char) (rest : List Char)
    (h : listContains n rest = true) : listContains n (d :: rest) = true := by
  simp only [listContains, Bool.or_eq_true]
  exact Or.inr h

theorem listContains_take_cons_append (n z : List Char) (d : Char) (m : Nat)
    (h : n.length + 1 ≤ m) : listContains n ((d :: (n ++ z)).take m) = true := by
  obtain ⟨m', rfl⟩ : ∃ m', m = m' + 1 := ⟨m - 1, by omega⟩
  rw [List.take_succ_cons]
  apply listContains_cons_of_listContains
  rw [List.take_append_eq_append_take, List.take_of_length_le (by omega)]
  exact listContains_append_self _ _

/-! ## Overlap structure lemmas -/

theorem addOverlapGo_eq_zip (ov : Nat) (prev : List Char) (cs : List (List Char)) :
    addOverlapGo ov prev cs =
      ((prev :: cs).zip cs).map
        (fun p => '.' :: '.' :: '.' :: (overlapSnippet ov p.1 ++ ' ' :: p.2)) := by
  induction cs generalizing prev with
  | nil => rfl
  | cons c cs ih => simp [addOverlapGo, List.zip_cons_cons, ih]

theorem addOverlap_eq_zip (ov : Nat) (cs : List (List Char)) :
    addOverlap ov cs =
      cs.take 1 ++ (cs.zip cs.tail).map
        (fun p => '.' :: '.' :: '.' :: (overlapSnippet ov p.1 ++ ' ' :: p.2)) := by
  cases cs with
  | nil => rfl
  | cons c cs => simp [addOverlap, addOverlapGo_eq_zip]

theorem findIdx?_space_cons (c : Char) (rest : List Char) :
    (c :: rest).findIdx? (fun x => x = ' ') =
      if c = ' ' then some 0 else (rest.findIdx? (fun x => x = ' ')).map (fun i => i + 1) := by
  rw [List.findIdx?_cons, List.findIdx?_succ]
  by_cases hc : c = ' ' <;> simp [hc]

theorem contains_space_eq_isSome_findIdx? (l : List Char) :
    l.contains ' ' = (l.findIdx? (fun c => c = ' ')).isSome := by
  induction l with
  | nil => rfl
  | cons c rest ih =>
      rw [List.contains_cons, findIdx?_space_cons]
      by_cases hc : c = ' '
      · simp [hc]
      · have hne : (' ' == c) = false := by
          simp only [beq_eq_false_iff_ne, ne_eq]
          exact fun e => hc e.symm
        rw [if_neg hc, hne, Bool.false_or, ih]
        cases rest.findIdx? (fun c => c = ' ') <;> rfl

theorem dropWhile_drop_one_of_findIdx?_space (l : List Char) (j : Nat)
    (h : l.findIdx? (fun c => c = ' ') = some j) :
    (l.dropWhile (fun c => ¬ c = ' ')).drop 1 = l.drop (j + 1) := by
  induction l generalizing j with
  | nil => rw [List.findIdx?_nil] at h; cases h
  | cons c rest ih =>
      rw [findIdx?_space_cons] at h
      by_cases hc : c = ' '
      · rw [if_pos hc] at h
        injection h with h
        subst h
        simp [List.dropWhile_cons, hc]
      · rw [if_neg hc, Option.map_eq_some'] at h
        obtain ⟨j', hj', rfl⟩ := h
        rw [List.dropWhile_cons, if_pos (by simp [hc]), List.drop_succ_cons]
        exact ih j' hj'

theorem snippetOfWindow_eq_of_none (t : List Char)
    (h : t.findIdx? (fun c => c = ' ') = none) : snippetOfWindow t = t := by
  unfold snippetOfWindow
  rw [h]

theorem snippetOfWindow_eq_of_some (t : List Char) (i : Nat)
    (h : t.findIdx? (fun c => c = ' ') = some i) :
    snippetOfWindow t = if 0 < i then t.drop (i + 1) else t := by
  unfold snippetOfWindow
  rw [h]

/-- The trimming performed by `_add_overlap` coincides with the amended
description of the snippet rule. -/
theorem snippetOfWindow_eq_amended (w : List Char) :
    snippetOfWindow w = snippetAmendedOfWindow w := by
  cases w with
  | nil => rfl
  | cons c rest =>
      by_cases hc : c = ' '
      · have hidx : (c :: rest).findIdx? (fun x => x = ' ') = some 0 := by
          rw [findIdx?_space_cons, if_pos hc]
        rw [snippetOfWindow_eq_of_some _ _ hidx, if_neg (lt_irrefl 0),
          snippetAmendedOfWindow, if_neg]
        rintro ⟨-, hh⟩
        exact hh (by subst hc; rfl)
      · cases hrest : rest.findIdx? (fun x => x = ' ') with
        | none =>
            have hcont : rest.contains ' ' = false := by
              rw [contains_space_eq_isSome_findIdx?, hrest]
              rfl
            have hidx : (c :: rest).findIdx? (fun x => x = ' ') = none := by
              rw [findIdx?_space_cons, if_neg hc, hrest]
              rfl
            rw [snippetOfWindow_eq_of_none _ hidx, snippetAmendedOfWindow, if_neg]
            rintro ⟨hA, -⟩
            rw [List.contains_cons, Bool.or_eq_true] at hA
            cases hA with
            | inl h => exact hc ((beq_iff_eq.mp h).symm)
            | inr h => rw [hcont] at h; cases h
        | some j =>
            have hcont : rest.contains ' ' = true := by
              rw [contains_space_eq_isSome_findIdx?, hrest]
              rfl
            have hdw := dropWhile_drop_one_of_findIdx?_space rest j hrest
            have hidx : (c :: rest).findIdx? (fun x => x = ' ') = some (j + 1) := by
              rw [findIdx?_space_cons, if_neg hc, hrest]
              rfl
            have hcond : ((c :: rest).contains ' ' = true ∧ (c :: rest).head? ≠ some ' ') := by
              constructor
              · rw [List.contains_cons, Bool.or_eq_true]
                exact Or.inr hcont
              · simp [hc]
            rw [snippetOfWindow_eq_of_some _ _ hidx, if_pos (Nat.succ_pos j),
              snippetAmendedOfWindow, if_pos hcond, List.drop_succ_cons,
              List.dropWhile_cons, if_pos (by simp [hc])]
            exact hdw.symm

theorem overlapSnippet_eq_snippetAmended (ov : Nat) (prev : List Char) :
    overlapSnippet ov prev = snippetAmended ov prev := by
  have hwin : overlapWindow ov prev = prev.drop (prev.length - ov) := by
    rw [overlapWindow]
    by_cases h : ov < prev.length
    · rw [if_pos h]
    · rw [if_neg h]
      have h0 : prev.length - ov = 0 := by omega
      rw [h0, List.drop_zero]
  rw [overlapSnippet, snippetAmended, hwin, snippetOfWindow_eq_amended]


/-! ## Word splitting lemmas -/

theorem dropWhile_eq_self_of_forall_false (p : Char → Bool) (l : List Char)
    (h : ∀ c ∈ l, p c = false) : l.dropWhile p = l := by
  cases l with
  | nil => rfl
  | cons a t =>
      rw [List.dropWhile_cons, if_neg]
      simp [h a (by simp)]

theorem splitWsGo_words_sound (l : List Char) :
    ∀ cur : List Char, (∀ c ∈ cur, pyIsSpace c = false) →
      ∀ w ∈ splitWsGo l cur, w ≠ [] ∧ ∀ c ∈ w, pyIsSpace c = false := by
  induction l with
  | nil =>
      intro cur hcur w hw
      rw [splitWsGo] at hw
      by_cases h : cur = []
      · rw [if_pos h] at hw
        cases hw
      · rw [if_neg h] at hw
        have hw := List.mem_singleton.mp hw
        subst hw
        refine ⟨by simpa using h, ?_⟩
        intro c hc
        exact hcur c (List.mem_reverse.mp hc)
  | cons c cs ih =>
      intro cur hcur w hw
      rw [splitWsGo] at hw
      by_cases hsp : pyIsSpace c = true
      · rw [if_pos hsp] at hw
        by_cases h : cur = []
        · rw [if_pos h] at hw
          exact ih [] (by simp) w hw
        · rw [if_neg h] at hw
          rcases List.mem_cons.mp hw with hw | hw
          · subst hw
            refine ⟨by simpa using h, ?_⟩
            intro a ha
            exact hcur a (List.mem_reverse.mp ha)
          · exact ih [] (by simp) w hw
      · rw [if_neg hsp] at hw
        refine ih (c :: cur) ?_ w hw
        intro a ha
        rcases List.mem_cons.mp ha with rfl | ha
        · exact Bool.eq_false_iff.mpr hsp
        · exact hcur a ha

theorem pySplitWs_words_sound (text : List Char) :
    ∀ w ∈ pySplitWs text, w ≠ [] ∧ ∀ c ∈ w, pyIsSpace c = false :=
  splitWsGo_words_sound text [] (by simp)

theorem pyStrip_eq_self_of_no_ws (w : List Char)
    (h : ∀ c ∈ w, pyIsSpace c = false) : pyStrip w = w := by
  rw [pyStrip, dropWhile_eq_self_of_forall_false _ _ h,
    dropWhile_eq_self_of_forall_false _ _ (fun c hc => h c (List.mem_reverse.mp hc)),
    List.reverse_reverse]

theorem pyStrip_length_le (l : List Char) : (pyStrip l).length ≤ l.length := by
  rw [pyStrip, List.length_reverse]
  calc ((l.dropWhile pyIsSpace).reverse.dropWhile pyIsSpace).length
      ≤ (l.dropWhile pyIsSpace).reverse.length := (List.dropWhile_suffix _).length_le
    _ = (l.dropWhile pyIsSpace).length := List.length_reverse _
    _ ≤ l.length := (List.dropWhile_suffix _).length_le

theorem splitOnWordsLoop_bound (size : Nat) (allW : List (List Char))
    (hall : ∀ w ∈ allW, w ≠ [] ∧ ∀ ch ∈ w, pyIsSpace ch = false) :
    ∀ (ws chunks : List (List Char)) (cur : List Char),
      (∀ w ∈ ws, w ∈ allW) →
      (∀ ch ∈ chunks, ch.length ≤ size ∨ (ch ∈ allW ∧ size < ch.length)) →
      (cur = [] ∨ cur.length ≤ size ∨ cur ∈ allW) →
      ∀ ch ∈ splitOnWordsLoop size chunks cur ws,
        ch.length ≤ size ∨ (ch ∈ allW ∧ size < ch.length) := by
  have hflush : ∀ (chunks : List (List Char)) (cur : List Char),
      (∀ ch ∈ chunks, ch.length ≤ size ∨ (ch ∈ allW ∧ size < ch.length)) →
      (cur = [] ∨ cur.length ≤ size ∨ cur ∈ allW) →
      ∀ ch ∈ (if cur = [] then chunks else chunks ++ [pyStrip cur]),
        ch.length ≤ size ∨ (ch ∈ allW ∧ size < ch.length) := by
    intro chunks cur hchunks hcur ch hch
    by_cases h : cur = []
    · rw [if_pos h] at hch
      exact hchunks ch hch
    · rw [if_neg h] at hch
      rcases List.mem_append.mp hch with hch | hch
      · exact hchunks ch hch
      · have hch : ch = pyStrip cur := by simpa using hch
        subst hch
        rcases hcur with rfl | hle | hmem
        · exact absurd rfl h
        · exact Or.inl (le_trans (pyStrip_length_le cur) hle)
        · rw [pyStrip_eq_self_of_no_ws cur ((hall cur hmem).2)]
          rcases Nat.lt_or_ge size cur.length with hlt | hge
          · exact Or.inr ⟨hmem, hlt⟩
          · exact Or.inl hge
  intro ws
  induction ws with
  | nil =>
      intro chunks cur hws hchunks hcur ch hch
      rw [splitOnWordsLoop] at hch
      exact hflush chunks cur hchunks hcur ch hch
  | cons w ws ih =>
      intro chunks cur hws hchunks hcur ch hch
      rw [splitOnWordsLoop] at hch
      by_cases hov : size < cur.length + w.length + 1
      · rw [if_pos hov] at hch
        refine ih _ _ (fun x hx => hws x (by simp [hx])) (hflush chunks cur hchunks hcur)
          (Or.inr (Or.inr (hws w (by simp)))) ch hch
      · rw [if_neg hov] at hch
        refine ih _ _ (fun x hx => hws x (by simp [hx])) hchunks ?_ ch hch
        by_cases h : cur = []
        · rw [if_pos h]
          exact Or.inr (Or.inl (by omega))
        · rw [if_neg h]
          refine Or.inr (Or.inl ?_)
          have : (cur ++ ' ' :: w).length = cur.length + 1 + w.length := by
            simp [List.length_append]
            omega
          omega

/-- C6: every chunk produced by `_split_on_words` has length at most
`chunk_size`, except when the chunk is a single input word (an element of
the whitespace-split word list) that is itself longer than `chunk_size`. -/
theorem splitOnWords_size_bound (size : Nat) (text : List Char) :
    ∀ ch ∈ splitOnWords size text,
      ch.length ≤ size ∨ (ch ∈ pySplitWs text ∧ size < ch.length) := by
  intro ch hch
  exact splitOnWordsLoop_bound size (pySplitWs text) (pySplitWs_words_sound text)
    (pySplitWs text) [] [] (fun w hw => hw) (by simp) (Or.inl rfl) ch hch

/-- Witness for C6 at a concrete oversized single word. -/
theorem splitOnWords_size_bound_witness :
    ("aaaaaaa".data ∈ splitOnWords 5 "aaaaaaa bb".data) ∧
    (("aaaaaaa".data).length ≤ 5 ∨
      ("aaaaaaa".data ∈ pySplitWs "aaaaaaa bb".data ∧ 5 < ("aaaaaaa".data).length)) :=
  ⟨by decide, splitOnWords_size_bound 5 "aaaaaaa bb".data _ (by decide)⟩

/-! ## Chunk index lemmas -/

theorem mkSectionChunks_length (s : ParsedSection) (doc : ParsedDocument)
    (pid iid : List Char) (parts start : Nat) :
    ∀ (ts : List (List Char)) (i : Nat),
      (mkSectionChunks s doc pid iid parts start i ts).length = ts.length := by
  intro ts
  induction ts with
  | nil => intro i; rfl
  | cons t ts ih => intro i; simp [mkSectionChunks, ih (i + 1)]

theorem range'_append_one (s m n : Nat) :
    List.range' s m ++ List.range' (s + m) n = List.range' s (m + n) := by
  have h := List.range'_append s m n 1
  rw [Nat.one_mul] at h
  rw [Nat.add_comm n m] at h
  exact h

theorem mkSectionChunks_map_index (s : ParsedSection) (doc : ParsedDocument)
    (pid iid : List Char) (parts start : Nat) :
    ∀ (ts : List (List Char)) (i : Nat),
      (mkSectionChunks s doc pid iid parts start i ts).map DocumentChunk.chunk_index =
        List.range' (start + i) ts.length := by
  intro ts
  induction ts with
  | nil => intro i; rfl
  | cons t ts ih =>
      intro i
      have harith : start + (i + 1) = start + i + 1 := by omega
      simp only [mkSectionChunks, List.map_cons, ih (i + 1), List.length_cons,
        List.range'_succ, harith]

theorem chunkSection_map_index (size ov : Nat) (s : ParsedSection) (doc : ParsedDocument)
    (pid iid : List Char) (start : Nat) :
    (chunkSection size ov s doc pid iid start).map DocumentChunk.chunk_index =
      List.range' start (chunkSection size ov s doc pid iid start).length := by
  rw [chunkSection]
  by_cases h1 : pyStrip s.content = []
  · rw [if_pos h1]; rfl
  · rw [if_neg h1]
    by_cases h2 : (pyStrip s.content).length ≤ size
    · rw [if_pos h2]; rfl
    · rw [if_neg h2]
      rw [mkSectionChunks_map_index, mkSectionChunks_length, Nat.add_zero]

theorem chunkDocumentGo_map_index (size ov : Nat) (doc : ParsedDocument)
    (pid iid : List Char) :
    ∀ (ss : List ParsedSection) (n : Nat),
      (chunkDocumentGo size ov doc pid iid n ss).map DocumentChunk.chunk_index =
        List.range' n (chunkDocumentGo size ov doc pid iid n ss).length := by
  intro ss
  induction ss with
  | nil => intro n; rfl
  | cons s ss ih =>
      intro n
      simp only [chunkDocumentGo, List.map_append, List.length_append]
      rw [chunkSection_map_index, ih, range'_append_one]

/-- C7: a section whose trimmed content is non-empty and fits into the
chunk size produces exactly one chunk, whose content is the whole formatted
section content (so no overlap marker is injected), carrying neither a
`chunk_part` nor a `section_parts` metadata key, at the running global
index. -/
theorem chunkSection_small_single_chunk (size ov : Nat) (s : ParsedSection)
    (doc : ParsedDocument) (pid iid : List Char) (start : Nat)
    (h1 : pyStrip s.content ≠ []) (h2 : (pyStrip s.content).length ≤ size) :
    (chunkSection size ov s doc pid iid start).length = 1 ∧
    ∀ c ∈ chunkSection size ov s doc pid iid start,
      c.content = formatChunkContent s.title (pyStrip s.content) ∧
      c.metadata.chunk_part = none ∧ c.metadata.section_parts = none ∧
      c.chunk_index = start := by
  rw [chunkSection, if_neg h1, if_pos h2]
  refine ⟨rfl, ?_⟩
  intro c hc
  have hc := List.mem_singleton.mp hc
  subst hc
  exact ⟨rfl, rfl, rfl, rfl⟩

/-- Witness for C7 at a concrete 10-character section. -/
theorem chunkSection_small_single_chunk_witness :
    (chunkSection 500 50 ⟨"Rules".data, "no smoking".data, 1, false⟩
        ⟨"Doc".data, [⟨"Rules".data, "no smoking".data, 1, false⟩], "house_manual".data,
          "en".data, "u".data, "f".data⟩ "p".data "i".data 0).length = 1 ∧
    ∀ c ∈ chunkSection 500 50 ⟨"Rules".data, "no smoking".data, 1, false⟩
        ⟨"Doc".data, [⟨"Rules".data, "no smoking".data, 1, false⟩], "house_manual".data,
          "en".data, "u".data, "f".data⟩ "p".data "i".data 0,
      c.content = formatChunkContent "Rules".data (pyStrip "no smoking".data) ∧
      c.metadata.chunk_part = none ∧ c.metadata.section_parts = none ∧
      c.chunk_index = 0 :=
  chunkSection_small_single_chunk 500 50 _ _ _ _ _ (by decide) (by decide)

/-! ## Non-whitespace propagation through stripping and splitting -/

theorem hasNonWs_nil_elim (h : hasNonWs ([] : List Char)) : False := by
  obtain ⟨c, hc, -⟩ := h
  cases hc

theorem ne_nil_of_hasNonWs (l : List Char) (h : hasNonWs l) : l ≠ [] := by
  intro he
  subst he
  exact hasNonWs_nil_elim h

theorem hasNonWs_reverse (l : List Char) (h : hasNonWs l) : hasNonWs l.reverse := by
  obtain ⟨c, hc, hp⟩ := h
  exact ⟨c, List.mem_reverse.mpr hc, hp⟩

theorem mem_dropWhile_of_false (p : Char → Bool) (l : List Char) (c : Char)
    (hc : c ∈ l) (hp : p c = false) : c ∈ l.dropWhile p := by
  rw [← List.takeWhile_append_dropWhile p l] at hc
  rcases List.mem_append.mp hc with h | h
  · have := List.mem_takeWhile_imp h
    rw [hp] at this
    cases this
  · exact h

theorem mem_pyStrip_of_nonWs (l : List Char) (c : Char) (hc : c ∈ l)
    (hp : pyIsSpace c = false) : c ∈ pyStrip l := by
  rw [pyStrip]
  refine List.mem_reverse.mpr (mem_dropWhile_of_false _ _ _ ?_ hp)
  exact List.mem_reverse.mpr (mem_dropWhile_of_false _ _ _ hc hp)

theorem hasNonWs_pyStrip (l : List Char) (h : hasNonWs l) : hasNonWs (pyStrip l) := by
  obtain ⟨c, hc, hp⟩ := h
  exact ⟨c, mem_pyStrip_of_nonWs l c hc hp, hp⟩

theorem pyStrip_ne_nil_of_hasNonWs (l : List Char) (h : hasNonWs l) : pyStrip l ≠ [] :=
  ne_nil_of_hasNonWs _ (hasNonWs_pyStrip l h)

theorem dropWhile_head_false (p : Char → Bool) (m : List Char) (c : Char) (rest : List Char)
    (h : m.dropWhile p = c :: rest) : p c = false := by
  induction m with
  | nil => cases h
  | cons a t ih =>
      rw [List.dropWhile_cons] at h
      by_cases hp : p a = true
      · rw [if_pos hp] at h
        exact ih h
      · rw [if_neg hp] at h
        injection h with h1 _
        subst h1
        exact Bool.eq_false_iff.mpr hp

theorem pyStrip_lastNonWs (l : List Char) (h : pyStrip l ≠ []) : lastNonWs (pyStrip l) := by
  rw [pyStrip] at h ⊢
  cases hY : (l.dropWhile pyIsSpace).reverse.dropWhile pyIsSpace with
  | nil => rw [hY] at h; exact absurd rfl h
  | cons c rest =>
      refine ⟨c, ?_, dropWhile_head_false _ _ _ _ hY⟩
      rw [List.getLast?_reverse]
      rfl

theorem hasNonWs_of_pyStrip_ne_nil (l : List Char) (h : pyStrip l ≠ []) :
    hasNonWs (pyStrip l) := by
  obtain ⟨c, hc, hp⟩ := pyStrip_lastNonWs l h
  exact ⟨c, List.mem_of_mem_getLast? hc, hp⟩

theorem splitParasGo_exists_nonWs :
    ∀ (l cur : List Char) (k : Nat), (hasNonWs l ∨ hasNonWs cur) →
      ∃ p ∈ splitParasGo l cur k, hasNonWs p := by
  intro l
  induction l with
  | nil =>
      intro cur k h
      rcases h with h | h
      · exact absurd h (fun h => hasNonWs_nil_elim h)
      · rw [splitParasGo]
        by_cases h2 : 2 ≤ k
        · rw [if_pos h2]
          exact ⟨cur.reverse, by simp, hasNonWs_reverse _ h⟩
        · rw [if_neg h2]
          by_cases h1 : k = 1
          · rw [if_pos h1]
            refine ⟨('\n' :: cur).reverse, by simp, hasNonWs_reverse _ ?_⟩
            obtain ⟨c, hc, hp⟩ := h
            exact ⟨c, by simp [hc], hp⟩
          · rw [if_neg h1]
            exact ⟨cur.reverse, by simp, hasNonWs_reverse _ h⟩
  | cons c cs ih =>
      intro cur k h
      rw [splitParasGo]
      by_cases hnl : c = '\n'
      · rw [if_pos hnl]
        apply ih
        rcases h with h | h
        · obtain ⟨x, hx, hp⟩ := h
          rcases List.mem_cons.mp hx with rfl | hx
          · rw [hnl] at hp
            simp [pyIsSpace] at hp
          · exact Or.inl ⟨x, hx, hp⟩
        · exact Or.inr h
      · rw [if_neg hnl]
        by_cases h2 : 2 ≤ k
        · rw [if_pos h2]
          rcases h with h | h
          · obtain ⟨x, hx, hp⟩ := h
            rcases List.mem_cons.mp hx with rfl | hx
            · obtain ⟨p, hp2, hp3⟩ := ih [x] 0 (Or.inr ⟨x, by simp, hp⟩)
              exact ⟨p, by simp [hp2], hp3⟩
            · obtain ⟨p, hp2, hp3⟩ := ih [c] 0 (Or.inl ⟨x, hx, hp⟩)
              exact ⟨p, by simp [hp2], hp3⟩
          · exact ⟨cur.reverse, by simp, hasNonWs_reverse _ h⟩
        · rw [if_neg h2]
          by_cases h1 : k = 1
          · rw [if_pos h1]
            apply ih
            rcases h with h | h
            · obtain ⟨x, hx, hp⟩ := h
              rcases List.mem_cons.mp hx with rfl | hx
              · exact Or.inr ⟨x, by simp, hp⟩
              · exact Or.inl ⟨x, hx, hp⟩
            · obtain ⟨x, hx, hp⟩ := h
              exact Or.inr ⟨x, by simp [hx], hp⟩
          · rw [if_neg h1]
            apply ih
            rcases h with h | h
            · obtain ⟨x, hx, hp⟩ := h
              rcases List.mem_cons.mp hx with rfl | hx
              · exact Or.inr ⟨x, by simp, hp⟩
              · exact Or.inl ⟨x, hx, hp⟩
            · obtain ⟨x, hx, hp⟩ := h
              exact Or.inr ⟨x, by simp [hx], hp⟩

theorem lastNonWs_cons_ws (c : Char) (cs : List Char) (hws : pyIsSpace c = true)
    (h : lastNonWs (c :: cs)) : cs ≠ [] ∧ lastNonWs cs := by
  obtain ⟨x, hx, hp⟩ := h
  cases cs with
  | nil =>
      simp only [List.getLast?_singleton, Option.some.injEq] at hx
      subst hx
      rw [hws] at hp
      cases hp
  | cons d t =>
      rw [List.getLast?_cons_cons] at hx
      exact ⟨by simp, ⟨x, hx, hp⟩⟩

theorem lastNonWs_append_right (a m : List Char) (hm : m ≠ [])
    (h : lastNonWs (a ++ m)) : lastNonWs m := by
  obtain ⟨x, hx, hp⟩ := h
  rw [List.getLast?_append] at hx
  cases hm2 : m.getLast? with
  | none =>
      cases m with
      | nil => exact absurd rfl hm
      | cons d t =>
          exfalso
          rw [List.getLast?_eq_getLast _ (by simp)] at hm2
          cases hm2
  | some y =>
      rw [hm2] at hx
      simp only [Option.or_some, Option.some.injEq] at hx
      subst hx
      exact ⟨y, hm2, hp⟩

theorem punctHead_hasNonWs (cur : List Char) (h : punctHead cur = true) : hasNonWs cur := by
  cases cur with
  | nil => cases h
  | cons q t =>
      refine ⟨q, by simp, ?_⟩
      rw [punctHead] at h
      simp only [Bool.or_eq_true, decide_eq_true_eq] at h
      rcases h with (h | h) | h <;> subst h <;> rfl

theorem splitSentencesGo_pieces_nonWs :
    ∀ (l : List Char) (mode : Bool) (cur : List Char),
      lastNonWs (cur.reverse ++ l) → (mode = true → cur = []) →
      ∀ p ∈ splitSentencesGo mode l cur, hasNonWs p := by
  intro l
  induction l with
  | nil =>
      intro mode cur hlast hmode p hp
      rw [splitSentencesGo] at hp
      have hp := List.mem_singleton.mp hp
      subst hp
      rw [List.append_nil] at hlast
      obtain ⟨x, hx, hpx⟩ := hlast
      exact ⟨x, List.mem_of_mem_getLast? hx, hpx⟩
  | cons c cs ih =>
      intro mode cur hlast hmode p hp
      cases mode with
      | true =>
          have hcur := hmode rfl
          subst hcur
          rw [splitSentencesGo] at hp
          simp only [List.reverse_nil, List.nil_append] at hlast
          by_cases hsp : pyIsSpace c = true
          · rw [if_pos hsp] at hp
            obtain ⟨-, hlast2⟩ := lastNonWs_cons_ws c cs hsp hlast
            exact ih true [] (by simpa using hlast2) (fun _ => rfl) p hp
          · rw [if_neg hsp] at hp
            exact ih false [c] (by simpa using hlast) (by simp) p hp
      | false =>
          rw [splitSentencesGo] at hp
          by_cases hcond : (pyIsSpace c && punctHead cur) = true
          · rw [if_pos hcond] at hp
            obtain ⟨hws, hpunct⟩ : pyIsSpace c = true ∧ punctHead cur = true := by
              simpa using hcond
            rcases List.mem_cons.mp hp with rfl | hp
            · exact hasNonWs_reverse _ (punctHead_hasNonWs cur hpunct)
            · have h1 : lastNonWs (c :: cs) :=
                lastNonWs_append_right cur.reverse _ (by simp) hlast
              obtain ⟨-, h2⟩ := lastNonWs_cons_ws c cs hws h1
              exact ih true [] (by simpa using h2) (fun _ => rfl) p hp
          · rw [if_neg hcond] at hp
            refine ih false (c :: cur) ?_ (by simp) p hp
            have harr : (c :: cur).reverse ++ cs = cur.reverse ++ (c :: cs) := by
              rw [List.reverse_cons, List.append_assoc]
              rfl
            rw [harr]
            exact hlast

theorem splitSentencesGo_ne_nil :
    ∀ (l : List Char) (mode : Bool) (cur : List Char), splitSentencesGo mode l cur ≠ [] := by
  intro l
  induction l with
  | nil => intro mode cur; rw [splitSentencesGo]; simp
  | cons c cs ih =>
      intro mode cur
      cases mode with
      | true =>
          rw [splitSentencesGo]
          by_cases hsp : pyIsSpace c = true
          · rw [if_pos hsp]; exact ih true cur
          · rw [if_neg hsp]; exact ih false (c :: cur)
      | false =>
          rw [splitSentencesGo]
          by_cases hcond : (pyIsSpace c && punctHead cur) = true
          · rw [if_pos hcond]; simp
          · rw [if_neg hcond]; exact ih false (c :: cur)

theorem splitWsGo_ne_nil :
    ∀ (l cur : List Char), (hasNonWs l ∨ cur ≠ []) → splitWsGo l cur ≠ [] := by
  intro l
  induction l with
  | nil =>
      intro cur h
      rcases h with h | h
      · exact absurd h (fun h => hasNonWs_nil_elim h)
      · rw [splitWsGo, if_neg h]
        simp
  | cons c cs ih =>
      intro cur h
      rw [splitWsGo]
      by_cases hsp : pyIsSpace c = true
      · rw [if_pos hsp]
        by_cases hc : cur = []
        · rw [if_pos hc]
          apply ih
          left
          rcases h with h | h
          · obtain ⟨x, hx, hp⟩ := h
            rcases List.mem_cons.mp hx with rfl | hx
            · rw [hsp] at hp; cases hp
            · exact ⟨x, hx, hp⟩
          · exact absurd hc h
        · rw [if_neg hc]
          simp
      · rw [if_neg hsp]
        apply ih
        right
        simp

theorem hasNonWs_of_word (w : List Char) (hne : w ≠ [])
    (hall : ∀ c ∈ w, pyIsSpace c = false) : hasNonWs w := by
  cases w with
  | nil => exact absurd rfl hne
  | cons c t => exact ⟨c, by simp, hall c (by simp)⟩

theorem splitOnWordsLoop_nonWs (size : Nat) :
    ∀ (ws chunks : List (List Char)) (cur : List Char),
      (∀ ch ∈ chunks, hasNonWs ch) → (cur = [] ∨ hasNonWs cur) →
      (∀ w ∈ ws, w ≠ [] ∧ ∀ c ∈ w, pyIsSpace c = false) →
      (∀ ch ∈ splitOnWordsLoop size chunks cur ws, hasNonWs ch) ∧
      ((chunks ≠ [] ∨ cur ≠ [] ∨ ws ≠ []) → splitOnWordsLoop size chunks cur ws ≠ []) := by
  have hflushAll : ∀ (chunks : List (List Char)) (cur : List Char),
      (∀ ch ∈ chunks, hasNonWs ch) → (cur = [] ∨ hasNonWs cur) →
      ∀ ch ∈ (if cur = [] then chunks else chunks ++ [pyStrip cur]), hasNonWs ch := by
    intro chunks cur hchunks hcur ch hch
    by_cases h : cur = []
    · rw [if_pos h] at hch
      exact hchunks ch hch
    · rw [if_neg h] at hch
      rcases List.mem_append.mp hch with hch | hch
      · exact hchunks ch hch
      · have hch := List.mem_singleton.mp hch
        subst hch
        rcases hcur with rfl | hcur
        · exact absurd rfl h
        · exact hasNonWs_pyStrip cur hcur
  intro ws
  induction ws with
  | nil =>
      intro chunks cur hchunks hcur hws
      constructor
      · intro ch hch
        rw [splitOnWordsLoop] at hch
        exact hflushAll chunks cur hchunks hcur ch hch
      · intro h3
        rw [splitOnWordsLoop]
        by_cases h : cur = []
        · rw [if_pos h]
          rcases h3 with h3 | h3 | h3
          · exact h3
          · exact absurd h h3
          · exact absurd rfl h3
        · rw [if_neg h]
          simp
  | cons w ws ih =>
      intro chunks cur hchunks hcur hws
      have hw := hws w (by simp)
      have hwNW : hasNonWs w := hasNonWs_of_word w hw.1 hw.2
      have hwsRest : ∀ x ∈ ws, x ≠ [] ∧ ∀ c ∈ x, pyIsSpace c = false :=
        fun x hx => hws x (by simp [hx])
      rw [splitOnWordsLoop]
      by_cases hov : size < cur.length + w.length + 1
      · rw [if_pos hov]
        have hrec := ih (if cur = [] then chunks else chunks ++ [pyStrip cur]) w
          (hflushAll chunks cur hchunks hcur) (Or.inr hwNW) hwsRest
        exact ⟨hrec.1, fun _ => hrec.2 (Or.inr (Or.inl (ne_nil_of_hasNonWs w hwNW)))⟩
      · rw [if_neg hov]
        have hcur2 : (if cur = [] then w else cur ++ ' ' :: w) = [] ∨
            hasNonWs (if cur = [] then w else cur ++ ' ' :: w) := by
          right
          by_cases h : cur = []
          · rw [if_pos h]
            exact hwNW
          · rw [if_neg h]
            obtain ⟨x, hx, hp⟩ := hwNW
            exact ⟨x, by simp [hx], hp⟩
        have hrec := ih chunks _ hchunks hcur2 hwsRest
        refine ⟨hrec.1, fun _ => hrec.2 (Or.inr (Or.inl ?_))⟩
        by_cases h : cur = []
        · rw [if_pos h]
          exact hw.1
        · rw [if_neg h]
          simp

theorem splitOnWords_nonWs (size : Nat) (s : List Char) (h : hasNonWs s) :
    splitOnWords size s ≠ [] ∧ ∀ ch ∈ splitOnWords size s, hasNonWs ch := by
  have hw := pySplitWs_words_sound s
  have hne : pySplitWs s ≠ [] := splitWsGo_ne_nil s [] (Or.inl h)
  have hmain := splitOnWordsLoop_nonWs size (pySplitWs s) [] []
    (by simp) (Or.inl rfl) hw
  exact ⟨hmain.2 (Or.inr (Or.inr hne)), hmain.1⟩

theorem flush_chunks_nonWs (chunks : List (List Char)) (cur : List Char)
    (hchunks : ∀ ch ∈ chunks, hasNonWs ch) (hcur : cur = [] ∨ hasNonWs cur) :
    ∀ ch ∈ (if cur = [] then chunks else chunks ++ [pyStrip cur]), hasNonWs ch := by
  intro ch hch
  by_cases h : cur = []
  · rw [if_pos h] at hch
    exact hchunks ch hch
  · rw [if_neg h] at hch
    rcases List.mem_append.mp hch with hch | hch
    · exact hchunks ch hch
    · have hch := List.mem_singleton.mp hch
      subst hch
      rcases hcur with rfl | hcur
      · exact absurd rfl h
      · exact hasNonWs_pyStrip cur hcur

theorem splitLongParaLoop_nonWs (size : Nat) :
    ∀ (ss chunks : List (List Char)) (cur : List Char),
      (∀ ch ∈ chunks, hasNonWs ch) → (cur = [] ∨ hasNonWs cur) →
      (∀ s ∈ ss, hasNonWs s) →
      (∀ ch ∈ splitLongParaLoop size chunks cur ss, hasNonWs ch) ∧
      ((chunks ≠ [] ∨ cur ≠ [] ∨ ss ≠ []) → splitLongParaLoop size chunks cur ss ≠ []) := by
  intro ss
  induction ss with
  | nil =>
      intro chunks cur hchunks hcur hss
      constructor
      · intro ch hch
        rw [splitLongParaLoop] at hch
        exact flush_chunks_nonWs chunks cur hchunks hcur ch hch
      · intro h3
        rw [splitLongParaLoop]
        by_cases h : cur = []
        · rw [if_pos h]
          rcases h3 with h3 | h3 | h3
          · exact h3
          · exact absurd h h3
          · exact absurd rfl h3
        · rw [if_neg h]
          simp
  | cons s ss ih =>
      intro chunks cur hchunks hcur hss
      have hs : hasNonWs s := hss s (by simp)
      have hssRest : ∀ x ∈ ss, hasNonWs x := fun x hx => hss x (by simp [hx])
      rw [splitLongParaLoop]
      by_cases h1 : size < cur.length + s.length + 1
      · rw [if_pos h1]
        by_cases h2 : size < s.length
        · rw [if_pos h2]
          obtain ⟨hwne, hwall⟩ := splitOnWords_nonWs size s hs
          have hchunks2 : ∀ ch ∈ (if cur = [] then chunks else chunks ++ [pyStrip cur]) ++
              (splitOnWords size s).dropLast, hasNonWs ch := by
            intro ch hch
            rcases List.mem_append.mp hch with hch | hch
            · exact flush_chunks_nonWs chunks cur hchunks hcur ch hch
            · exact hwall ch (List.dropLast_subset _ hch)
          have hlastNW : hasNonWs ((splitOnWords size s).getLast?.getD []) := by
            rw [List.getLast?_eq_getLast _ hwne]
            exact hwall _ (List.getLast_mem hwne)
          have hrec := ih _ _ hchunks2 (Or.inr hlastNW) hssRest
          exact ⟨hrec.1, fun _ => hrec.2 (Or.inr (Or.inl (ne_nil_of_hasNonWs _ hlastNW)))⟩
        · rw [if_neg h2]
          have hrec := ih _ s (flush_chunks_nonWs chunks cur hchunks hcur)
            (Or.inr hs) hssRest
          exact ⟨hrec.1, fun _ => hrec.2 (Or.inr (Or.inl (ne_nil_of_hasNonWs s hs)))⟩
      · rw [if_neg h1]
        have hcur2 : (if cur = [] then s else cur ++ ' ' :: s) = [] ∨
            hasNonWs (if cur = [] then s else cur ++ ' ' :: s) := by
          right
          by_cases h : cur = []
          · rw [if_pos h]
            exact hs
          · rw [if_neg h]
            obtain ⟨x, hx, hp⟩ := hs
            exact ⟨x, by simp [hx], hp⟩
        have hrec := ih chunks _ hchunks hcur2 hssRest
        refine ⟨hrec.1, fun _ => hrec.2 (Or.inr (Or.inl ?_))⟩
        by_cases h : cur = []
        · rw [if_pos h]
          exact ne_nil_of_hasNonWs s hs
        · rw [if_neg h]
          simp

theorem splitLongParagraph_nonWs (size : Nat) (para : List Char)
    (hp : ∀ s ∈ splitSentences para, hasNonWs s) :
    splitLongParagraph size para ≠ [] ∧
    ∀ ch ∈ splitLongParagraph size para, hasNonWs ch := by
  have h := splitLongParaLoop_nonWs size (splitSentences para) [] [] (by simp) (Or.inl rfl) hp
  exact ⟨h.2 (Or.inr (Or.inr (splitSentencesGo_ne_nil para false []))), h.1⟩

theorem splitTextLoop_ne_nil (size : Nat) :
    ∀ (ps chunks : List (List Char)) (cur : List Char),
      (cur = [] ∨ hasNonWs cur) →
      (chunks ≠ [] ∨ cur ≠ [] ∨ ∃ p ∈ ps, hasNonWs p) →
      splitTextLoop size chunks cur ps ≠ [] := by
  intro ps
  induction ps with
  | nil =>
      intro chunks cur hcur h
      rw [splitTextLoop]
      by_cases hc : cur = []
      · rw [if_pos hc]
        rcases h with h | h | h
        · exact h
        · exact absurd hc h
        · obtain ⟨p, hp, -⟩ := h
          cases hp
      · rw [if_neg hc]
        simp
  | cons p ps ih =>
      intro chunks cur hcur h
      rw [splitTextLoop]
      by_cases hsp : pyStrip p = []
      · rw [if_pos hsp]
        apply ih chunks cur hcur
        rcases h with h | h | h
        · exact Or.inl h
        · exact Or.inr (Or.inl h)
        · obtain ⟨x, hx, hnw⟩ := h
          rcases List.mem_cons.mp hx with rfl | hx
          · exact absurd hsp (pyStrip_ne_nil_of_hasNonWs x hnw)
          · exact Or.inr (Or.inr ⟨x, hx, hnw⟩)
      · rw [if_neg hsp]
        have hlast := pyStrip_lastNonWs p hsp
        have hpieces : ∀ s ∈ splitSentences (pyStrip p), hasNonWs s := by
          intro s hs
          exact splitSentencesGo_pieces_nonWs (pyStrip p) false []
            (by simpa using hlast) (by simp) s hs
        have hparaNW : hasNonWs (pyStrip p) := hasNonWs_of_pyStrip_ne_nil p hsp
        by_cases h1 : size < cur.length + (pyStrip p).length + 2
        · rw [if_pos h1]
          by_cases h2 : size < (pyStrip p).length
          · rw [if_pos h2]
            obtain ⟨hpne, hpall⟩ := splitLongParagraph_nonWs size (pyStrip p) hpieces
            have hlastNW : hasNonWs ((splitLongParagraph size (pyStrip p)).getLast?.getD []) := by
              rw [List.getLast?_eq_getLast _ hpne]
              exact hpall _ (List.getLast_mem hpne)
            apply ih _ _ (Or.inr hlastNW)
            exact Or.inr (Or.inl (ne_nil_of_hasNonWs _ hlastNW))
          · rw [if_neg h2]
            apply ih _ _ (Or.inr hparaNW)
            exact Or.inr (Or.inl (ne_nil_of_hasNonWs _ hparaNW))
        · rw [if_neg h1]
          have hcur2 : (if cur = [] then pyStrip p else cur ++ '\n' :: '\n' :: pyStrip p) = [] ∨
              hasNonWs (if cur = [] then pyStrip p else cur ++ '\n' :: '\n' :: pyStrip p) := by
            right
            by_cases hc : cur = []
            · rw [if_pos hc]
              exact hparaNW
            · rw [if_neg hc]
              obtain ⟨x, hx, hp2⟩ := hparaNW
              refine ⟨x, ?_, hp2⟩
              simp [hx]
          apply ih chunks _ hcur2
          refine Or.inr (Or.inl ?_)
          by_cases hc : cur = []
          · rw [if_pos hc]
            exact ne_nil_of_hasNonWs _ hparaNW
          · rw [if_neg hc]
            simp

theorem rawChunks_ne_nil (size : Nat) (text : List Char) (h : hasNonWs text) :
    rawChunks size text ≠ [] := by
  rw [rawChunks]
  apply splitTextLoop_ne_nil size (splitParas text) [] [] (Or.inl rfl)
  exact Or.inr (Or.inr (splitParasGo_exists_nonWs text [] 0 (Or.inl h)))

theorem splitText_ne_nil (size ov : Nat) (text : List Char) (h : hasNonWs text) :
    splitText size ov text ≠ [] := by
  rw [splitText]
  by_cases hc : 0 < ov ∧ 1 < (rawChunks size text).length
  · rw [if_pos hc]
    cases hraw : rawChunks size text with
    | nil => exact absurd hraw (rawChunks_ne_nil size text h)
    | cons c cs => simp [addOverlap]
  · rw [if_neg hc]
    exact rawChunks_ne_nil size text h

theorem chunkSection_ne_nil (size ov : Nat) (s : ParsedSection) (doc : ParsedDocument)
    (pid iid : List Char) (start : Nat) (h : pyStrip s.content ≠ []) :
    chunkSection size ov s doc pid iid start ≠ [] := by
  rw [chunkSection, if_neg h]
  by_cases h2 : (pyStrip s.content).length ≤ size
  · rw [if_pos h2]
    simp
  · rw [if_neg h2]
    have hnw : hasNonWs (pyStrip s.content) := hasNonWs_of_pyStrip_ne_nil _ h
    have hts := splitText_ne_nil size ov (pyStrip s.content) hnw
    intro he
    have hlen := mkSectionChunks_length s doc pid iid
      (splitText size ov (pyStrip s.content)).length start
      (splitText size ov (pyStrip s.content)) 0
    rw [he] at hlen
    exact hts (List.length_eq_zero.mp hlen.symm)

theorem chunkSection_eq_nil_of_empty (size ov : Nat) (s : ParsedSection)
    (doc : ParsedDocument) (pid iid : List Char) (start : Nat)
    (h : pyStrip s.content = []) : chunkSection size ov s doc pid iid start = [] := by
  rw [chunkSection, if_pos h]

theorem chunkDocumentGo_eq_nil_iff (size ov : Nat) (doc : ParsedDocument)
    (pid iid : List Char) :
    ∀ (ss : List ParsedSection) (n : Nat),
      chunkDocumentGo size ov doc pid iid n ss = [] ↔
        ∀ s ∈ ss, pyStrip s.content = [] := by
  intro ss
  induction ss with
  | nil =>
      intro n
      simp [chunkDocumentGo]
  | cons s ss ih =>
      intro n
      rw [chunkDocumentGo, List.append_eq_nil]
      constructor
      · rintro ⟨h1, h2⟩
        intro x hx
        rcases List.mem_cons.mp hx with rfl | hx
        · by_contra hne
          exact chunkSection_ne_nil size ov x doc pid iid n hne h1
        · exact (ih _).mp h2 x hx
      · intro hall
        refine ⟨chunkSection_eq_nil_of_empty size ov s doc pid iid n (hall s (by simp)), ?_⟩
        exact (ih _).mpr (fun x hx => hall x (by simp [hx]))

/-- C1: for a document with at least one section of non-empty trimmed
content, `chunk_document` returns a non-empty sequence whose `chunk_index`
values are exactly `0 .. total_chunks - 1` in order, and every chunk's
`total_chunks` equals the length of the returned sequence. -/
theorem chunkDocument_indices (size ov : Nat) (doc : ParsedDocument) (pid iid : List Char)
    (h : ∃ s ∈ doc.sections, pyStrip s.content ≠ []) :
    (chunkDocument size ov doc pid iid).map DocumentChunk.chunk_index =
      List.range (chunkDocument size ov doc pid iid).length ∧
    (∀ c ∈ chunkDocument size ov doc pid iid,
      c.total_chunks = (chunkDocument size ov doc pid iid).length) ∧
    chunkDocument size ov doc pid iid ≠ [] := by
  refine ⟨?_, ?_, ?_⟩
  · rw [chunkDocument, List.length_map, List.map_map]
    have hcomp : (DocumentChunk.chunk_index ∘ fun c =>
        { c with total_chunks := (chunkDocumentGo size ov doc pid iid 0 doc.sections).length }) =
        DocumentChunk.chunk_index := funext (fun c => rfl)
    rw [hcomp, chunkDocumentGo_map_index, List.range_eq_range']
  · intro c hc
    rw [chunkDocument, List.length_map]
    rw [chunkDocument] at hc
    obtain ⟨c2, -, rfl⟩ := List.mem_map.mp hc
    rfl
  · rw [chunkDocument]
    intro he
    rw [List.map_eq_nil_iff] at he
    obtain ⟨s, hs, hne⟩ := h
    exact hne ((chunkDocumentGo_eq_nil_iff size ov doc pid iid doc.sections 0).mp he s hs)

/-- Witness for C1 on a concrete two-section document. -/
theorem chunkDocument_indices_witness :
    (chunkDocument 500 50
        ⟨"D".data, [⟨"A".data, "hello world".data, 1, false⟩, ⟨"B".data, "hi".data, 2, true⟩],
          "house_manual".data, "en".data, "u".data, "f".data⟩ "p".data "i".data).map
        DocumentChunk.chunk_index =
      List.range (chunkDocument 500 50
        ⟨"D".data, [⟨"A".data, "hello world".data, 1, false⟩, ⟨"B".data, "hi".data, 2, true⟩],
          "house_manual".data, "en".data, "u".data, "f".data⟩ "p".data "i".data).length ∧
    (∀ c ∈ chunkDocument 500 50
        ⟨"D".data, [⟨"A".data, "hello world".data, 1, false⟩, ⟨"B".data, "hi".data, 2, true⟩],
          "house_manual".data, "en".data, "u".data, "f".data⟩ "p".data "i".data,
      c.total_chunks = (chunkDocument 500 50
        ⟨"D".data, [⟨"A".data, "hello world".data, 1, false⟩, ⟨"B".data, "hi".data, 2, true⟩],
          "house_manual".data, "en".data, "u".data, "f".data⟩ "p".data "i".data).length) ∧
    chunkDocument 500 50
        ⟨"D".data, [⟨"A".data, "hello world".data, 1, false⟩, ⟨"B".data, "hi".data, 2, true⟩],
          "house_manual".data, "en".data, "u".data, "f".data⟩ "p".data "i".data ≠ [] :=
  chunkDocument_indices 500 50 _ "p".data "i".data (by decide)

/-- C8: `chunk_document` (a total function in this embedding) skips every
section whose trimmed content is empty, and returns the empty sequence
exactly when every section's trimmed content is empty. -/
theorem chunkDocument_skip_empty (size ov : Nat) (doc : ParsedDocument) (pid iid : List Char) :
    (∀ (s : ParsedSection) (start : Nat), pyStrip s.content = [] →
      chunkSection size ov s doc pid iid start = []) ∧
    (chunkDocument size ov doc pid iid = [] ↔ ∀ s ∈ doc.sections, pyStrip s.content = []) := by
  constructor
  · intro s start hs
    exact chunkSection_eq_nil_of_empty size ov s doc pid iid start hs
  · rw [chunkDocument, List.map_eq_nil_iff]
    exact chunkDocumentGo_eq_nil_iff size ov doc pid iid doc.sections 0

/-- Witness for C8 on a concrete all-whitespace document. -/
theorem chunkDocument_skip_empty_witness :
    chunkSection 500 50 ⟨"T".data, "   ".data, 1, false⟩
      ⟨"D".data, [⟨"T".data, "   ".data, 1, false⟩], "t".data, "en".data, "u".data, "f".data⟩
      "p".data "i".data 0 = [] ∧
    chunkDocument 500 50
      ⟨"D".data, [⟨"T".data, "   ".data, 1, false⟩], "t".data, "en".data, "u".data, "f".data⟩
      "p".data "i".data = [] :=
  ⟨(chunkDocument_skip_empty 500 50
      ⟨"D".data, [⟨"T".data, "   ".data, 1, false⟩], "t".data, "en".data, "u".data, "f".data⟩
      "p".data "i".data).1 _ 0 (by decide),
    (chunkDocument_skip_empty 500 50
      ⟨"D".data, [⟨"T".data, "   ".data, 1, false⟩], "t".data, "en".data, "u".data, "f".data⟩
      "p".data "i".data).2.mpr (by decide)⟩

/-- C9 counterexample: at the heading-based construction sites a section is
NOT flagged critical when only its body contains a keyword.  The body
`"Call 911 now"` contains the keyword `911` (the classifier itself accepts
it), yet the section titled `"Misc"` is built with `is_critical = false`. -/
theorem isCritical_title_only_cex :
    (mkHeadingSection "Misc".data "Call 911 now".data 1).is_critical = false ∧
    isCriticalSection "Call 911 now".data = true := by
  decide

/-- C9 (amended): at the heading-based section construction sites,
`is_critical` is computed from the title alone — it is true exactly when
some keyword of the fixed vocabulary occurs case-insensitively in the
title; in particular a section titled "Emergency Contacts" is critical
whatever its content. -/
theorem mkHeadingSection_critical_iff (title content : List Char) (level : Nat) :
    ((mkHeadingSection title content level).is_critical = true ↔
      ∃ k ∈ CRITICAL_KEYWORDS, listContains k (pyLower title) = true) ∧
    ∀ (c2 : List Char) (l2 : Nat),
      (mkHeadingSection "Emergency Contacts".data c2 l2).is_critical = true := by
  constructor
  · simp [mkHeadingSection, isCriticalSection, List.any_eq_true]
  · intro c2 l2
    exact (by decide : isCriticalSection "Emergency Contacts".data = true)

/-! ## Theorems for the constructor claims -/

/-- C2 counterexample: the effective overlap is NOT always at most half of
the effective (clamped) chunk size.  Requesting `chunk_size = 9000`,
`chunk_overlap = 4000` yields effective size `2000` but effective overlap
`4000 > 1000`. -/
theorem effectiveChunkOverlap_not_half_of_effective_size :
    ¬ (effectiveChunkOverlap 9000 4000 ≤ Int.fdiv (effectiveChunkSize 9000) 2) := by
  decide

/-- C2 (amended): the effective chunk size is clamped into `[100, 2000]`, and
the effective overlap is clamped to at most half of the REQUESTED chunk size
(`chunk_size // 2` of the raw constructor argument); requesting
`chunk_overlap = 9000` with `chunk_size = 500` yields effective overlap `250`. -/
theorem effectiveChunk_clamps (cs co : Int) :
    100 ≤ effectiveChunkSize cs ∧ effectiveChunkSize cs ≤ 2000 ∧
    effectiveChunkOverlap cs co ≤ Int.fdiv cs 2 ∧
    effectiveChunkOverlap 500 9000 = 250 := by
  refine ⟨le_max_left _ _, max_le (by norm_num) (min_le_right _ _), min_le_right _ _, by decide⟩

/-- C10: `get_chunking_service` constructs a service only when the module
global is unset; a subsequent call ignores its `chunk_size`/`chunk_overlap`
arguments and returns the originally configured instance with the global
unchanged. -/
theorem getChunkingService_first_call_wins (cs co cs' co' : Int) :
    getChunkingService cs co none =
      (mkChunkingService cs co, some (mkChunkingService cs co)) ∧
    (getChunkingService cs' co' (getChunkingService cs co none).2).1 =
      mkChunkingService cs co ∧
    (getChunkingService cs' co' (getChunkingService cs co none).2).2 =
      (getChunkingService cs co none).2 := by
  exact ⟨rfl, rfl, rfl⟩

/-! ## Theorems for the formatting claims -/

/-- C5 counterexample: the title-prefix rule is NOT idempotent for every
title and content.  With a 100-character title and empty content, the
bracketed title does not fit inside the 100-character presence check, so a
second application prefixes again. -/
theorem formatChunkContent_not_idempotent :
    formatChunkContent (List.replicate 100 'a')
        (formatChunkContent (List.replicate 100 'a') []) ≠
      formatChunkContent (List.replicate 100 'a') [] := by
  decide

/-- C5 (amended): the title-prefix rule is idempotent for every title of
length at most 99 (so that the bracketed title still lies inside the first
100 characters of the prefixed content) and every content string. -/
theorem formatChunkContent_idem_of_short_title (t c : List Char) (h : t.length ≤ 99) :
    formatChunkContent t (formatChunkContent t c) = formatChunkContent t c := by
  by_cases h1 : t ≠ [] ∧ listContains (pyLower t) ((pyLower c).take 100) = false
  · have hr : formatChunkContent t c = '[' :: (t ++ ']' :: '\n' :: c) := by
      rw [formatChunkContent, if_pos h1]
    rw [hr, formatChunkContent, if_neg ?hcond]
    case hcond =>
      rintro ⟨-, hfalse⟩
      have hlow : pyLower ('[' :: (t ++ ']' :: '\n' :: c)) =
          Char.toLower '[' :: (pyLower t ++ Char.toLower ']' :: Char.toLower '\n' :: pyLower c) := by
        simp [pyLower]
      have hlen : (pyLower t).length + 1 ≤ 100 := by
        simp only [pyLower, List.length_map]; omega
      rw [hlow, listContains_take_cons_append _ _ _ _ hlen] at hfalse
      cases hfalse
  · have hr : formatChunkContent t c = c := by
      rw [formatChunkContent, if_neg h1]
    rw [hr, formatChunkContent, if_neg h1, ← hr]

/-- C3: overlap markers are injected by `_split_text` exactly for the
sub-chunks after the first of a section split into at least two raw
sub-chunks; a section whose split yields exactly one sub-chunk is returned
unchanged (no marker), and every injected snippet is `overlapSnippet` of the
same section's previous raw sub-chunk, so overlap never draws text from a
different section (each section is chunked by its own `_split_text` call on
its own content). -/
theorem splitText_overlap_markers (size ov : Nat) (text : List Char) (hov : 0 < ov) :
    ((rawChunks size text).length = 1 → splitText size ov text = rawChunks size text) ∧
    (1 < (rawChunks size text).length →
      splitText size ov text =
        (rawChunks size text).take 1 ++
          ((rawChunks size text).zip (rawChunks size text).tail).map
            (fun p => '.' :: '.' :: '.' :: (overlapSnippet ov p.1 ++ ' ' :: p.2))) := by
  constructor
  · intro h1
    rw [splitText, if_neg]
    rintro ⟨-, h⟩
    omega
  · intro h1
    rw [splitText, if_pos ⟨hov, h1⟩, addOverlap_eq_zip]

/-- Witness for C3 at a concrete two-paragraph section content. -/
theorem splitText_overlap_markers_witness :
    splitText 5 2 "aaa\n\nbbb".data =
      (rawChunks 5 "aaa\n\nbbb".data).take 1 ++
        ((rawChunks 5 "aaa\n\nbbb".data).zip (rawChunks 5 "aaa\n\nbbb".data).tail).map
          (fun p => '.' :: '.' :: '.' :: (overlapSnippet 2 p.1 ++ ' ' :: p.2)) :=
  (splitText_overlap_markers 5 2 "aaa\n\nbbb".data (by decide)).2 (by decide)

/-- C4 counterexample: the injected overlap snippet can start in the middle
of a word.  With `chunk_overlap = 4` and previous chunk `"abcdefghij"` (one
long word), the snippet is `"ghij"`, a proper suffix preceded by the
non-whitespace character `f`. -/
theorem overlapSnippet_midword_cex :
    snippetStartsMidWord "abcdefghij".data (overlapSnippet 4 "abcdefghij".data) = true ∧
    addOverlap 4 ["abcdefghij".data, "xyz".data] =
      ["abcdefghij".data, "...ghij xyz".data] := by
  decide

/-- C4 (amended): in `_add_overlap` every chunk after the first becomes
`"..." ++ snippet ++ " " ++ chunk`, where the snippet is the last
`chunk_overlap` characters of the previous chunk, trimmed past the first
space only when that space sits at a positive index (so a space-free window,
or one starting with a space, is kept whole and may start mid-word). -/
theorem addOverlap_amended_snippet (ov : Nat) (cs : List (List Char)) :
    addOverlap ov cs =
      cs.take 1 ++ (cs.zip cs.tail).map
        (fun p => '.' :: '.' :: '.' :: (snippetAmended ov p.1 ++ ' ' :: p.2)) := by
  rw [addOverlap_eq_zip]
  congr 1
  apply List.map_congr_left
  intro p _
  rw [overlapSnippet_eq_snippetAmended]

/-- Witness for C5 (amended) at a concrete title and content. -/
theorem formatChunkContent_idem_witness :
    ("Checkout".data).length ≤ 99 ∧
    formatChunkContent "Checkout".data (formatChunkContent "Checkout".data "some text".data) =
      formatChunkContent "Checkout".data "some text".data :=
  ⟨by decide, formatChunkContent_idem_of_short_title _ _ (by decide)⟩

end Chunking
